import Mathlib

/-!
Verification of the Nigerian phone-number utilities (nig-utils).

Strings from the TypeScript source are embedded as lists of characters
(`Str := List Char`); the string literal `"+234"` is written as the character
list `['+', '2', '3', '4']`.  Every definition below is a direct translation of
the corresponding TypeScript function in `src/telco/index.ts`,
`src/telco/constants.ts` and `src/telco/cache.ts`; throwing functions become
`Except PhoneErr`-valued functions, with one error constructor per `throw`
site.
-/

namespace NigUtils

/-- Character-list embedding of JavaScript strings. -/
abbrev Str := List Char

/-- The four Nigerian telecom providers (`TelcoProvider` in `types.ts`);
the TypeScript literal `'9MOBILE'` is `nineMobile`. -/
inductive Telco where
  | mtn
  | glo
  | airtel
  | nineMobile
deriving DecidableEq

/-- The three output formats accepted by `normalizePhone` (`PhoneFormat`);
the TypeScript literal `'local'` is `localFmt` (`local` is a Lean keyword). -/
inductive PhoneFormat where
  | localFmt
  | international
  | e164
deriving DecidableEq

/-- One constructor per distinct `throw` site of `normalizePhone`
(the error taxonomy of spec section 7). -/
inductive PhoneErr where
  | emptyInput
  | invalidLength
  | invalidCountryCode
  | invalidLocalNumber
  | invalidFormat
  | invalidNigerianNumber
deriving DecidableEq

/-- Entry of `TELCO_DATA` (`TelcoPrefix` in `types.ts`). -/
structure TelcoPrefixData where
  provider : Telco
  prefixes : List Str
  description : String
deriving DecidableEq

/-- `TELCO_DATA` from `constants.ts`, keyed by provider. -/
def TELCO_DATA : Telco → TelcoPrefixData
  | .mtn =>
    ⟨.mtn,
     ["0703", "0704", "0706", "07025", "07026",
      "0803", "0806", "0810", "0813", "0814", "0816",
      "0903", "0906", "0913", "0916"].map String.toList,
     "MTN Nigeria"⟩
  | .glo =>
    ⟨.glo,
     ["0705", "0805", "0807", "0811", "0815", "0905", "0915"].map String.toList,
     "Globacom Nigeria"⟩
  | .airtel =>
    ⟨.airtel,
     ["0701", "0708", "0802", "0808", "0812", "0901", "0902", "0907", "0912"].map String.toList,
     "Airtel Nigeria"⟩
  | .nineMobile =>
    ⟨.nineMobile,
     ["0809", "0817", "0818", "0908", "0909"].map String.toList,
     "9mobile Nigeria"⟩

/-- `getTelcoInfo` from `index.ts`: `TELCO_DATA[provider]`. -/
def getTelcoInfo (provider : Telco) : TelcoPrefixData := TELCO_DATA provider

/-- Key order of `Object.keys(TELCO_DATA)`. -/
def allTelcos : List Telco := [.mtn, .glo, .airtel, .nineMobile]

/-- `PREFIX_MAP` from `constants.ts`: every declared prefix inserted with its
provider, iterating providers in declaration order.  The declared prefixes are
pairwise distinct, so an association list looked up front-to-back has exactly
the semantics of the JavaScript `Map`. -/
def PREFIX_MAP : List (Str × Telco) :=
  (allTelcos.map (fun t => (TELCO_DATA t).prefixes.map (fun p => (p, t)))).flatten

/-- `Map.get` on an association list: first (unique) binding wins. -/
def assocLookup {K V : Type} [DecidableEq K] (k : K) : List (K × V) → Option V
  | [] => none
  | p :: rest => if p.1 = k then some p.2 else assocLookup k rest

/-- `PREFIX_MAP.get(k)`. -/
def pfxLookup (k : Str) : Option Telco := assocLookup k PREFIX_MAP

/-- Characters kept by `PATTERNS.CLEANUP = /[^\d+]/g` when used with
`replace(..., '')`: every digit and every `+` survives, everything else is
removed. -/
def cleanupKeep (c : Char) : Bool := c.isDigit || c == '+'

/-- The cleanup step `phone.replace(PATTERNS.CLEANUP, '')` of `normalizePhone`. -/
def cleanup (phone : Str) : Str := phone.filter cleanupKeep

/-- `PATTERNS.E164_VALIDATION.test s` for the regex `^\+234\d(10)$`:
literal `+234` followed by exactly ten digits. -/
def isE164 (s : Str) : Bool :=
  List.isPrefixOf ['+', '2', '3', '4'] s &&
    (s.drop 4).length == 10 && (s.drop 4).all Char.isDigit

/-- `PATTERNS.LOCAL_VALIDATION.test s` for the regex `^0\d(10)$`. -/
def isLocalFormat (s : Str) : Bool :=
  match s with
  | '0' :: rest => rest.length == 10 && rest.all Char.isDigit
  | _ => false

/-- The `switch (firstChar)` block of `normalizePhone`, acting on the cleaned
string.  The `[]` arm is unreachable (the caller has already checked
`10 <= cleaned.length`). -/
def classify (cleaned : Str) : Except PhoneErr Str :=
  match cleaned with
  | [] => .error .invalidLength
  | c :: _ =>
    if c = '+' then
      if List.isPrefixOf ['+', '2', '3', '4'] cleaned then .ok cleaned
      else .error .invalidCountryCode
    else if c = '2' then
      if List.isPrefixOf ['2', '3', '4'] cleaned then .ok ('+' :: cleaned)
      else .error .invalidCountryCode
    else if c = '0' then
      if cleaned.length = 11 then .ok (['+', '2', '3', '4'] ++ cleaned.drop 1)
      else if cleaned.length = 10 then .error .invalidLocalNumber
      else .error .invalidLength
    else
      if cleaned.length = 10 then .ok (['+', '2', '3', '4'] ++ cleaned)
      else .error .invalidFormat

/-- `normalizePhone` up to (and including) the defensive
`PATTERNS.E164_VALIDATION` check, before output-format conversion. -/
def normalizePhoneCore (phone : Str) : Except PhoneErr Str :=
  if phone.length = 0 then .error .emptyInput
  else if (cleanup phone).length < 10 ∨ 14 < (cleanup phone).length then .error .invalidLength
  else
    match classify (cleanup phone) with
    | .error e => .error e
    | .ok normalized =>
      if isE164 normalized then .ok normalized else .error .invalidNigerianNumber

/-- The final `switch (targetFormat)` of `normalizePhone`:
`local` is `'0' + normalized.slice(4)`, the other two tags return the
canonical string unchanged. -/
def convertFormat (format : PhoneFormat) (normalized : Str) : Str :=
  match format with
  | .localFmt => '0' :: normalized.drop 4
  | .international => normalized
  | .e164 => normalized

/-- `normalizePhone(phone, format)` from `index.ts`. -/
def normalizePhone (phone : Str) (format : PhoneFormat) : Except PhoneErr Str :=
  (normalizePhoneCore phone).map (convertFormat format)

/-- `isValidNigerianNumber`: true exactly when `normalizePhone(phone)` (with the
default `e164` format) does not throw. -/
def isValidNigerianNumber (phone : Str) : Bool :=
  match normalizePhone phone .e164 with
  | .ok _ => true
  | .error _ => false

/-- `getTelco` from `index.ts`: normalize, derive the local form, probe the
5-character then the 4-character head in `PREFIX_MAP`; `null` on any failure. -/
def getTelco (phone : Str) : Option Telco :=
  match normalizePhone phone .e164 with
  | .error _ => none
  | .ok normalized =>
    let localFormat := '0' :: normalized.drop 4
    match pfxLookup (localFormat.take 5) with
    | some t => some t
    | none => pfxLookup (localFormat.take 4)

/-- `PhoneParts` from `types.ts`; the field `prefix` is renamed `pfx`. -/
structure PhoneParts where
  pfx : Str
  telco : Option Telco
  number : Str
deriving DecidableEq

/-- `splitPhoneParts` from `index.ts`. -/
def splitPhoneParts (phone : Str) : Except PhoneErr PhoneParts :=
  match normalizePhone phone .e164 with
  | .error e => .error e
  | .ok normalized =>
    let localFormat := '0' :: normalized.drop 4
    match pfxLookup (localFormat.take 5) with
    | some t5 => .ok ⟨localFormat.take 5, some t5, normalized.drop 4⟩
    | none =>
      match pfxLookup (localFormat.take 4) with
      | some t4 => .ok ⟨localFormat.take 4, some t4, normalized.drop 4⟩
      | none => .ok ⟨[], none, normalized.drop 4⟩

/-- `PhoneInfo` from `types.ts`; the field `prefix` is renamed `pfx`. -/
structure PhoneInfo where
  original : Str
  normalized : Str
  telco : Option Telco
  isValid : Bool
  format : PhoneFormat
  pfx : Str
  number : Str
deriving DecidableEq

/-- `getPhoneInfo` from `index.ts`.  The `phoneInfoCache` layer is omitted:
entries are only ever written with the value `getPhoneInfo` computes for the
same key, and the computation is deterministic, so a cache hit returns exactly
the value modelled here.  The `catch` branch fires exactly when
`normalizePhone` throws (and then `splitPhoneParts`, whose only throw is that
same `normalizePhone` call, throws too). -/
def getPhoneInfo (phone : Str) : PhoneInfo :=
  match normalizePhone phone .e164, splitPhoneParts phone with
  | .ok normalized, .ok parts =>
    { original := phone
      normalized := normalized
      telco := getTelco phone
      isValid := true
      format :=
        match phone with
        | '+' :: _ => .international
        | '0' :: _ => .localFmt
        | _ => .e164
      pfx := parts.pfx
      number := parts.number }
  | _, _ =>
    { original := phone
      normalized := []
      telco := none
      isValid := false
      format := .e164
      pfx := []
      number := [] }

/-- `generateRandomPhone(telco)` from `index.ts`, with the random draws made
explicit: `i` is the index `Math.floor(Math.random() * prefixes.length)`
selecting one of the provider's declared prefixes, and each element of `draws`
is one raw draw whose digit is `Math.floor(Math.random() * 10)`, rendered as a
character.  The source generates exactly `11 - prefix.length` draws; theorems
state that as a hypothesis on `draws.length`. -/
def generateRandomPhone (t : Telco) (i : Nat) (draws : List Nat) : Except PhoneErr Str :=
  let pfx := (getTelcoInfo t).prefixes.getD i []
  let number := draws.map (fun n => Char.ofNat (48 + n % 10))
  normalizePhone (pfx ++ number) .e164

/-- `validatePhoneFormat` from `index.ts`: safe-normalize into the requested
format, then test the output against that format's validation regex. -/
def validatePhoneFormat (phone : Str) (format : PhoneFormat) : Bool :=
  match normalizePhone phone format with
  | .error _ => false
  | .ok data =>
    match format with
    | .localFmt => isLocalFormat data
    | .international => isE164 data
    | .e164 => isE164 data

/-! ### Helper lemmas about the normalization pipeline -/

theorem cleanup_eq_self {s : Str} (h : ∀ c ∈ s, cleanupKeep c = true) :
    cleanup s = s :=
  List.filter_eq_self.mpr h

theorem cleanup_of_all_digits {s : Str} (h : s.all Char.isDigit = true) :
    cleanup s = s := by
  refine cleanup_eq_self (fun c hc => ?_)
  have := List.all_eq_true.mp h c hc
  simp [cleanupKeep, this]

theorem drop4_cons (d : Str) : ('+' :: '2' :: '3' :: '4' :: d).drop 4 = d := rfl

theorem isE164_cons {d : Str} (h10 : d.length = 10) (hd : d.all Char.isDigit = true) :
    isE164 ('+' :: '2' :: '3' :: '4' :: d) = true := by
  have hpre : ['+', '2', '3', '4'] <+: ('+' :: '2' :: '3' :: '4' :: d) := ⟨d, rfl⟩
  simp [isE164, List.isPrefixOf_iff_prefix, hpre, drop4_cons, h10, hd]

theorem isE164_elim {s : Str} (h : isE164 s = true) :
    ∃ d : Str, s = '+' :: '2' :: '3' :: '4' :: d ∧ d.length = 10 ∧ d.all Char.isDigit = true := by
  simp only [isE164, Bool.and_eq_true, beq_iff_eq, List.isPrefixOf_iff_prefix] at h
  obtain ⟨⟨⟨d, hs⟩, hlen⟩, hdig⟩ := h
  have hd : s.drop 4 = d := by rw [← hs]; exact List.drop_left' (by rfl)
  rw [hd] at hlen hdig
  exact ⟨d, hs.symm, hlen, hdig⟩

/-- A string of the local shape `0` + ten digits normalizes to
`+234` + those digits. -/
theorem normalize_local_digits (s : Str) (h0 : s.head? = some '0')
    (h11 : s.length = 11) (hd : s.all Char.isDigit = true) :
    normalizePhoneCore s = .ok (['+', '2', '3', '4'] ++ s.drop 1) := by
  obtain ⟨t, rfl⟩ : ∃ t, s = '0' :: t := by
    cases s with
    | nil => simp at h0
    | cons c t =>
      simp only [List.head?_cons, Option.some.injEq] at h0
      exact ⟨t, by rw [h0]⟩
  have hclean : cleanup ('0' :: t) = '0' :: t := cleanup_of_all_digits hd
  have htlen : t.length = 10 := by simpa using h11
  have htdig : t.all Char.isDigit = true := by
    simp only [List.all_cons, Bool.and_eq_true] at hd
    exact hd.2
  have hcls : classify ('0' :: t) = .ok (['+', '2', '3', '4'] ++ t) := by
    simp [classify, h11]
  have hE : isE164 ('+' :: '2' :: '3' :: '4' :: t) = true := isE164_cons htlen htdig
  simp [normalizePhoneCore, hclean, h11, hcls, hE]

/-- Canonical strings re-normalize to themselves. -/
theorem normalizeCore_of_isE164 {s : Str} (h : isE164 s = true) :
    normalizePhoneCore s = .ok s := by
  obtain ⟨d, rfl, hlen, hdig⟩ := isE164_elim h
  have hkeep : ∀ c ∈ '+' :: '2' :: '3' :: '4' :: d, cleanupKeep c = true := by
    intro c hc
    simp only [List.mem_cons] at hc
    rcases hc with rfl | rfl | rfl | rfl | hdmem
    · rfl
    · rfl
    · rfl
    · rfl
    · have := List.all_eq_true.mp hdig c hdmem
      simp [cleanupKeep, this]
  have hclean : cleanup ('+' :: '2' :: '3' :: '4' :: d) = '+' :: '2' :: '3' :: '4' :: d :=
    cleanup_eq_self hkeep
  have hlen14 : ('+' :: '2' :: '3' :: '4' :: d).length = 14 := by simp [hlen]
  have hpre : List.isPrefixOf ['+', '2', '3', '4'] ('+' :: '2' :: '3' :: '4' :: d) = true := by
    rw [List.isPrefixOf_iff_prefix]
    exact ⟨d, rfl⟩
  have hcls : classify ('+' :: '2' :: '3' :: '4' :: d) =
      .ok ('+' :: '2' :: '3' :: '4' :: d) := by
    simp [classify, hpre]
  simp [normalizePhoneCore, hclean, hlen14, hcls, h]

/-! ### C1 -/

/-- C1: for every string of the form `0` followed by exactly ten digits,
`normalizePhone` (default `e164` format) returns `+234` followed by those same
ten digits, and normalizing that output back with format `local` returns the
original string. -/
theorem c1_local_roundtrip (d : Str) (hlen : d.length = 10)
    (hdig : d.all Char.isDigit = true) :
    normalizePhone ('0' :: d) .e164 = .ok (['+', '2', '3', '4'] ++ d) ∧
    normalizePhone (['+', '2', '3', '4'] ++ d) .localFmt = .ok ('0' :: d) := by
  constructor
  · have h := normalize_local_digits ('0' :: d) rfl (by simp [hlen])
      (by simp only [List.all_cons, Bool.and_eq_true]; exact ⟨rfl, hdig⟩)
    simp [normalizePhone, h, Except.map, convertFormat]
  · have hE : isE164 ('+' :: '2' :: '3' :: '4' :: d) = true := isE164_cons hlen hdig
    have h := normalizeCore_of_isE164 hE
    simp [normalizePhone, h, Except.map, convertFormat, drop4_cons]

/-- C1 witness at the concrete subscriber digits `8031234567`
(the spec scenario for `08031234567`). -/
theorem c1_local_roundtrip_witness :
    normalizePhone ('0' :: "8031234567".toList) .e164 =
      .ok (['+', '2', '3', '4'] ++ "8031234567".toList) ∧
    normalizePhone (['+', '2', '3', '4'] ++ "8031234567".toList) .localFmt =
      .ok ('0' :: "8031234567".toList) :=
  c1_local_roundtrip "8031234567".toList (by decide) (by decide)

/-! ### C2 -/

/-- C2 counterexample: the cleanup regex `/[^\d+]/g` keeps every `+`, not only
a leading one, so `'0803 123 4567+'` does not clean to the same string as
`'08031234567'` — the trailing `+` survives. -/
theorem c2_cleanup_counterexample :
    cleanup "0803 123 4567+".toList ≠ "08031234567".toList ∧
    cleanup "0803 123 4567+".toList = "08031234567+".toList := by
  constructor
  · decide
  · decide

/-- C2 (amended): the cleanup step removes exactly the characters that are
neither a digit nor a `+`, keeping every `+` regardless of position (order and
multiplicity of the kept characters are preserved); in particular
`'0803 123 4567+'` cleans to `'08031234567+'`, not to the cleanup of
`'08031234567'`. -/
theorem c2_cleanup_keeps_all_plus (s : Str) :
    List.Sublist (cleanup s) s ∧
    (∀ c : Char, (c.isDigit = true ∨ c = '+') → (cleanup s).count c = s.count c) ∧
    (∀ c : Char, ¬(c.isDigit = true ∨ c = '+') → (cleanup s).count c = 0) ∧
    cleanup "0803 123 4567+".toList = "08031234567+".toList := by
  refine ⟨List.filter_sublist s, ?_, ?_, by decide⟩
  · intro c hc
    have hk : cleanupKeep c = true := by
      rcases hc with h | rfl
      · simp [cleanupKeep, h]
      · rfl
    exact List.count_filter hk
  · intro c hc
    push_neg at hc
    have hk : cleanupKeep c = false := by
      have h1 : c.isDigit = false := by
        cases hdig : c.isDigit
        · rfl
        · exact absurd hdig hc.1
      simp [cleanupKeep, h1, hc.2]
    refine List.count_eq_zero.mpr (fun hmem => ?_)
    have := (List.mem_filter.mp hmem).2
    rw [hk] at this
    exact Bool.noConfusion this

/-- C2 witness: the amended characterization applied at the concrete string
`'a1'` and the digit character `'1'`. -/
theorem c2_cleanup_keeps_all_plus_witness :
    ('1'.isDigit = true ∨ '1' = '+') ∧
    (cleanup "a1".toList).count '1' = ("a1".toList).count '1' :=
  ⟨Or.inl (by decide), (c2_cleanup_keeps_all_plus "a1".toList).2.1 '1' (Or.inl (by decide))⟩

/-! ### C3 -/

/-- C3: `getPhoneInfo` absorbs every normalization failure: whenever
`normalizePhone` (default format) fails, it returns the record with
`isValid = false`, empty `normalized`, `telco = none`, empty `pfx` and
`number`, and the default format tag `e164`.  (In the embedding
`getPhoneInfo` is a total function, which models the fact that the
TypeScript function never throws.) -/
theorem c3_getPhoneInfo_absorbs_failure (phone : Str) (e : PhoneErr)
    (h : normalizePhone phone .e164 = .error e) :
    getPhoneInfo phone =
      { original := phone, normalized := [], telco := none, isValid := false,
        format := .e164, pfx := [], number := [] } := by
  rcases hs : splitPhoneParts phone with e2 | p2 <;> simp [getPhoneInfo, h, hs]

/-- C3 witness: the spec scenario `getInfo("123")`, whose normalization fails
with the length error. -/
theorem c3_getPhoneInfo_absorbs_failure_witness :
    normalizePhone "123".toList .e164 = .error .invalidLength ∧
    getPhoneInfo "123".toList =
      { original := "123".toList, normalized := [], telco := none, isValid := false,
        format := .e164, pfx := [], number := [] } :=
  ⟨by rfl, c3_getPhoneInfo_absorbs_failure "123".toList .invalidLength (by rfl)⟩

/-! ### C4 -/

/-- C4: on any number that normalizes, `getTelco` probes the 5-character head
of the local form first: if the 5-character head is a declared prefix the
declared provider is returned, and the 4-character probe is consulted only
when the 5-character probe finds no entry. -/
theorem c4_getTelco_five_digit_precedence (phone normalized : Str) (t : Telco)
    (h : normalizePhone phone .e164 = .ok normalized) :
    (pfxLookup (('0' :: normalized.drop 4).take 5) = some t → getTelco phone = some t) ∧
    (pfxLookup (('0' :: normalized.drop 4).take 5) = none →
      getTelco phone = pfxLookup (('0' :: normalized.drop 4).take 4)) := by
  constructor <;> intro h5
  · simp only [getTelco, h]
    rw [h5]
  · simp only [getTelco, h]
    rw [h5]

/-- C4 witness: `'07025123456'` normalizes to `+2347025123456`, its local form
starts with the declared 5-digit prefix `07025`, and `getTelco` returns MTN. -/
theorem c4_getTelco_five_digit_precedence_witness :
    normalizePhone "07025123456".toList .e164 = .ok "+2347025123456".toList ∧
    pfxLookup (('0' :: ("+2347025123456".toList).drop 4).take 5) = some .mtn ∧
    getTelco "07025123456".toList = some .mtn :=
  ⟨by rfl, by rfl,
    (c4_getTelco_five_digit_precedence "07025123456".toList "+2347025123456".toList .mtn
      (by rfl)).1 (by rfl)⟩

/-! ### C7 -/

theorem classify_zero (t : Str) :
    classify ('0' :: t) =
      if ('0' :: t).length = 11 then .ok (['+', '2', '3', '4'] ++ t)
      else if ('0' :: t).length = 10 then .error .invalidLocalNumber
      else .error .invalidLength := by
  simp [classify]

theorem isE164_cons_all (t : Str) (h10 : t.length = 10) :
    isE164 ('+' :: '2' :: '3' :: '4' :: t) = t.all Char.isDigit := by
  have hpre : ['+', '2', '3', '4'] <+: ('+' :: '2' :: '3' :: '4' :: t) := ⟨t, rfl⟩
  simp [isE164, List.isPrefixOf_iff_prefix, hpre, drop4_cons, h10]

/-- C7 counterexample: the cleaned string `0+123456789` starts with `0` and has
length exactly 11, but `normalizePhone` does not return `+234` followed by the
ten characters after the `0` — the defensive E.164 check rejects the interior
`+` and the call fails with the `InvalidNigerianNumber` error. -/
theorem c7_zero_branch_counterexample :
    cleanup "0+123456789".toList = "0+123456789".toList ∧
    ("0+123456789".toList).length = 11 ∧
    normalizePhone "0+123456789".toList .e164 = .error .invalidNigerianNumber ∧
    normalizePhone "0+123456789".toList .e164 ≠ .ok ("+234+123456789".toList) := by
  refine ⟨by rfl, by rfl, by rfl, fun hcontra => ?_⟩
  rw [show normalizePhone "0+123456789".toList .e164 =
        Except.error PhoneErr.invalidNigerianNumber from rfl] at hcontra
  exact Except.noConfusion hcontra

/-- C7 (amended): for every input whose cleaned string starts with `0` and has
length in `[10, 14]`: if the cleaned length is exactly 11 and the ten
characters after the leading `0` are all digits, the canonical form is `+234`
followed by those ten characters; if the cleaned length is exactly 11 but a
non-digit (an interior `+`) remains, the call fails with the
`InvalidNigerianNumber` error; if the cleaned length is exactly 10 it fails
with the `InvalidLocalNumber` error; for any other cleaned length in range it
fails with the `InvalidLength` error. -/
theorem c7_zero_branch (phone : Str)
    (h0 : (cleanup phone).head? = some '0')
    (hlo : 10 ≤ (cleanup phone).length) (hhi : (cleanup phone).length ≤ 14) :
    ((cleanup phone).length = 11 → ((cleanup phone).drop 1).all Char.isDigit = true →
        normalizePhone phone .e164 = .ok (['+', '2', '3', '4'] ++ (cleanup phone).drop 1)) ∧
    ((cleanup phone).length = 11 → ((cleanup phone).drop 1).all Char.isDigit = false →
        normalizePhone phone .e164 = .error .invalidNigerianNumber) ∧
    ((cleanup phone).length = 10 →
        normalizePhone phone .e164 = .error .invalidLocalNumber) ∧
    ((cleanup phone).length ≠ 11 → (cleanup phone).length ≠ 10 →
        normalizePhone phone .e164 = .error .invalidLength) := by
  obtain ⟨t, ht⟩ : ∃ t, cleanup phone = '0' :: t := by
    cases hc : cleanup phone with
    | nil => rw [hc] at h0; simp at h0
    | cons c rest =>
      rw [hc] at h0
      simp only [List.head?_cons, Option.some.injEq] at h0
      exact ⟨rest, by rw [h0]⟩
  have hne : ¬(phone.length = 0) := by
    have hle : (cleanup phone).length ≤ phone.length := List.length_filter_le _ _
    omega
  have hnlen : ¬((cleanup phone).length < 10 ∨ 14 < (cleanup phone).length) := by omega
  have hcore : normalizePhone phone .e164 =
      Except.map (convertFormat .e164)
        (match classify (cleanup phone) with
         | Except.error e => Except.error e
         | Except.ok n =>
           if isE164 n then Except.ok n
           else Except.error PhoneErr.invalidNigerianNumber) := by
    simp only [normalizePhone, normalizePhoneCore, if_neg hne, if_neg hnlen]
  refine ⟨?_, ?_, ?_, ?_⟩
  · intro h11 hdig
    rw [ht] at h11 hdig ⊢
    have ht10 : t.length = 10 := by simpa using h11
    have hdt : t.all Char.isDigit = true := by simpa using hdig
    rw [hcore, ht, classify_zero, if_pos h11]
    have hE : isE164 ('+' :: '2' :: '3' :: '4' :: t) = true := by
      rw [isE164_cons_all t ht10, hdt]
    simp [hE, Except.map, convertFormat]
  · intro h11 hdig
    rw [ht] at h11 hdig
    have ht10 : t.length = 10 := by simpa using h11
    have hdt : t.all Char.isDigit = false := by simpa using hdig
    rw [hcore, ht, classify_zero, if_pos h11]
    have hE : isE164 ('+' :: '2' :: '3' :: '4' :: t) = false := by
      rw [isE164_cons_all t ht10, hdt]
    simp [hE, Except.map]
  · intro h10
    rw [ht] at h10
    rw [hcore, ht, classify_zero, if_neg (by omega), if_pos h10]
    simp [Except.map]
  · intro hn11 hn10
    rw [ht] at hn11 hn10
    rw [hcore, ht, classify_zero, if_neg hn11, if_neg hn10]
    simp [Except.map]

/-- C7 witness: the three in-range realizable outcomes at concrete inputs:
`08031234567` (length 11, all digits — success), `8031234567x0` (cleaned
length 10 starting with a non-`0`? replaced by `0831234567` of length 10
starting with `0` — the local-number error), `080312345678` (length 12 — the
length error). -/
theorem c7_zero_branch_witness :
    normalizePhone "08031234567".toList .e164 =
      .ok (['+', '2', '3', '4'] ++ (cleanup "08031234567".toList).drop 1) ∧
    normalizePhone "0831234567".toList .e164 = .error .invalidLocalNumber ∧
    normalizePhone "080312345678".toList .e164 = .error .invalidLength :=
  ⟨(c7_zero_branch "08031234567".toList (by rfl) (by decide) (by decide)).1 (by decide)
      (by decide),
   (c7_zero_branch "0831234567".toList (by rfl) (by decide) (by decide)).2.2.1 (by decide),
   (c7_zero_branch "080312345678".toList (by rfl) (by decide) (by decide)).2.2.2 (by decide)
      (by decide)⟩

/-! ### C8 -/

/-- C8: whenever normalization succeeds, the `number` field of
`splitPhoneParts` is the canonical form minus its 4-character `+234` head,
regardless of which telco-prefix probe matched; in particular
`splitPhoneParts('07025123456')` returns prefix `07025`, telco MTN, and
number `7025123456`. -/
theorem c8_number_is_drop4 (phone normalized : Str)
    (h : normalizePhone phone .e164 = .ok normalized) :
    (∃ parts, splitPhoneParts phone = .ok parts ∧ parts.number = normalized.drop 4) ∧
    splitPhoneParts "07025123456".toList =
      .ok ⟨"07025".toList, some .mtn, "7025123456".toList⟩ := by
  constructor
  · simp only [splitPhoneParts, h]
    cases h5 : pfxLookup (('0' :: normalized.drop 4).take 5) with
    | some t5 => exact ⟨_, rfl, rfl⟩
    | none =>
      cases h4 : pfxLookup (('0' :: normalized.drop 4).take 4) with
      | some t4 => exact ⟨_, rfl, rfl⟩
      | none => exact ⟨_, rfl, rfl⟩
  · rfl

/-- C8 witness: applied at `08031234567`. -/
theorem c8_number_is_drop4_witness :
    normalizePhone "08031234567".toList .e164 = .ok "+2348031234567".toList ∧
    (∃ parts, splitPhoneParts "08031234567".toList = .ok parts ∧
      parts.number = ("+2348031234567".toList).drop 4) :=
  ⟨by rfl,
   (c8_number_is_drop4 "08031234567".toList "+2348031234567".toList (by rfl)).1⟩

/-! ### C10 -/

theorem normalizeCore_ok_isE164 {phone s : Str}
    (h : normalizePhoneCore phone = .ok s) : isE164 s = true := by
  unfold normalizePhoneCore at h
  split at h
  · exact absurd h (by simp)
  · split at h
    · exact absurd h (by simp)
    · split at h
      · exact absurd h (by simp)
      · split at h
        · rename_i hE
          injection h with hns
          rw [← hns]
          exact hE
        · exact absurd h (by simp)

/-- C10: the format argument never changes the verdict of
`validatePhoneFormat`: for every input and every pair of formats the two
verdicts agree, and both equal `isValidNigerianNumber`, because on success the
converted output always matches the validation pattern of its own target
format. -/
theorem c10_validatePhoneFormat_format_irrelevant (p : Str) (f1 f2 : PhoneFormat) :
    validatePhoneFormat p f1 = validatePhoneFormat p f2 ∧
    validatePhoneFormat p f1 = isValidNigerianNumber p := by
  suffices hall : ∀ f, validatePhoneFormat p f = isValidNigerianNumber p by
    exact ⟨(hall f1).trans (hall f2).symm, hall f1⟩
  intro f
  cases hcore : normalizePhoneCore p with
  | error e =>
    simp [validatePhoneFormat, isValidNigerianNumber, normalizePhone, hcore, Except.map]
  | ok s =>
    have hE : isE164 s = true := normalizeCore_ok_isE164 hcore
    obtain ⟨d, rfl, hlen, hdig⟩ := isE164_elim hE
    cases f with
    | localFmt =>
      simp [validatePhoneFormat, isValidNigerianNumber, normalizePhone, hcore,
        Except.map, convertFormat, drop4_cons, isLocalFormat, hlen, hdig]
    | international =>
      simp [validatePhoneFormat, isValidNigerianNumber, normalizePhone, hcore,
        Except.map, convertFormat, hE]
    | e164 =>
      simp [validatePhoneFormat, isValidNigerianNumber, normalizePhone, hcore,
        Except.map, convertFormat, hE]

/-! ### LRU cache (`src/telco/cache.ts`)

The JavaScript `Map` preserves insertion order, `delete` + `set` moves a key
to the end, and `keys().next().value` is the oldest entry, so the cache state
is embedded as the insertion-ordered list of key/value pairs (least recently
used first) together with the configured `maxSize`.
-/

/-- State of an `LRUCache<K, V>`: `entries` is the backing `Map` in its
iteration order (oldest first), `maxSize` the construction argument. -/
structure LRUCache (K V : Type) where
  entries : List (K × V)
  maxSize : Nat
deriving DecidableEq

/-- `new LRUCache(maxSize)`: the backing `Map` starts empty. -/
def LRUCache.empty (K V : Type) (maxSize : Nat) : LRUCache K V := ⟨[], maxSize⟩

variable {K V : Type} [DecidableEq K]

/-- `Map.get`: value of the unique binding of `k`, if any. -/
def lookupKey (k : K) : List (K × V) → Option V
  | [] => none
  | p :: rest => if p.1 = k then some p.2 else lookupKey k rest

/-- `Map.delete k` (on states reachable from the operations, `k` occurs at
most once, so removing every binding of `k` is the same removal). -/
def eraseKey (k : K) (l : List (K × V)) : List (K × V) :=
  l.filter (fun p => decide (p.1 ≠ k))

/-- `LRUCache.get`: on a hit, delete and re-insert the binding (promoting it
to most-recently-used) and return the value; on a miss return `undefined`. -/
def LRUCache.get (c : LRUCache K V) (k : K) : Option V × LRUCache K V :=
  match lookupKey k c.entries with
  | some v => (some v, { c with entries := eraseKey k c.entries ++ [(k, v)] })
  | none => (none, c)

/-- `LRUCache.set`: delete an existing binding of the key; otherwise, when at
capacity, delete the oldest entry (`keys().next().value`) if the map is
non-empty; then append the new binding at the end. -/
def LRUCache.set (c : LRUCache K V) (k : K) (v : V) : LRUCache K V :=
  let base :=
    if (lookupKey k c.entries).isSome then eraseKey k c.entries
    else if c.maxSize ≤ c.entries.length then
      match c.entries with
      | [] => []
      | _ :: rest => rest
    else c.entries
  { c with entries := base ++ [(k, v)] }

/-- `LRUCache.clear`. -/
def LRUCache.clear (c : LRUCache K V) : LRUCache K V := { c with entries := [] }

/-- `LRUCache.has`. -/
def LRUCache.hasKey (c : LRUCache K V) (k : K) : Bool :=
  (lookupKey k c.entries).isSome

/-- `LRUCache.delete`: returns whether the key was present, and the state
with the binding removed. -/
def LRUCache.del (c : LRUCache K V) (k : K) : Bool × LRUCache K V :=
  ((lookupKey k c.entries).isSome, { c with entries := eraseKey k c.entries })

/-- `LRUCache.size`. -/
def LRUCache.size (c : LRUCache K V) : Nat := c.entries.length

/-- One cache operation, for stating properties over operation sequences. -/
inductive CacheOp (K V : Type) where
  | get (k : K)
  | set (k : K) (v : V)
  | has (k : K)
  | del (k : K)
  | clear

/-- State after one operation. -/
def applyOp (c : LRUCache K V) : CacheOp K V → LRUCache K V
  | .get k => (c.get k).2
  | .set k v => c.set k v
  | .has _ => c
  | .del k => (c.del k).2
  | .clear => c.clear

/-- State after a sequence of operations. -/
def applyOps (c : LRUCache K V) (ops : List (CacheOp K V)) : LRUCache K V :=
  ops.foldl applyOp c

theorem eraseKey_length_lt {k : K} {l : List (K × V)} {v : V}
    (h : lookupKey k l = some v) : (eraseKey k l).length < l.length := by
  induction l with
  | nil => simp [lookupKey] at h
  | cons p rest ih =>
    simp only [eraseKey, List.filter_cons]
    by_cases hp : p.1 = k
    · have hd : decide (p.1 ≠ k) = false := by simp [hp]
      rw [hd]
      have hle : (rest.filter (fun q => decide (q.1 ≠ k))).length ≤ rest.length :=
        List.length_filter_le _ _
      simp only [Bool.false_eq_true, if_false, List.length_cons]
      omega
    · have hd : decide (p.1 ≠ k) = true := by simp [hp]
      rw [hd]
      simp only [lookupKey, if_neg hp] at h
      have hlt := ih h
      simp only [eraseKey] at hlt
      simp only [if_true, List.length_cons]
      omega

theorem applyOp_maxSize (c : LRUCache K V) (op : CacheOp K V) :
    (applyOp c op).maxSize = c.maxSize := by
  cases op with
  | get k =>
    simp only [applyOp, LRUCache.get]
    cases lookupKey k c.entries <;> rfl
  | set k v => rfl
  | has k => rfl
  | del k => rfl
  | clear => rfl

theorem applyOp_length_le (c : LRUCache K V) (op : CacheOp K V)
    (hpos : 0 < c.maxSize) (hlen : c.entries.length ≤ c.maxSize) :
    (applyOp c op).entries.length ≤ c.maxSize := by
  cases op with
  | get k =>
    simp only [applyOp, LRUCache.get]
    cases hl : lookupKey k c.entries with
    | none => exact hlen
    | some v =>
      simp only []
      have := eraseKey_length_lt hl
      simp only [List.length_append, List.length_cons, List.length_nil]
      omega
  | set k v =>
    simp only [applyOp, LRUCache.set]
    by_cases hk : (lookupKey k c.entries).isSome
    · have : ∃ v, lookupKey k c.entries = some v := Option.isSome_iff_exists.mp hk
      obtain ⟨v0, hv0⟩ := this
      have := eraseKey_length_lt hv0
      simp only [hk, if_true, List.length_append, List.length_cons, List.length_nil]
      omega
    · simp only [hk, Bool.false_eq_true, if_false]
      by_cases hfull : c.maxSize ≤ c.entries.length
      · rw [if_pos hfull]
        cases hent : c.entries with
        | nil =>
          simp only [List.nil_append, List.length_cons, List.length_nil]
          omega
        | cons p rest =>
          have : c.entries.length = rest.length + 1 := by rw [hent]; simp
          simp only [List.length_append, List.length_cons, List.length_nil]
          omega
      · rw [if_neg hfull]
        simp only [List.length_append, List.length_cons, List.length_nil]
        omega
  | has k => exact hlen
  | del k =>
    simp only [applyOp, LRUCache.del]
    have : (eraseKey k c.entries).length ≤ c.entries.length := List.length_filter_le _ _
    omega
  | clear =>
    simp only [applyOp, LRUCache.clear, List.length_nil]
    omega

theorem applyOps_length_le (ops : List (CacheOp K V)) (c : LRUCache K V)
    (hpos : 0 < c.maxSize) (hlen : c.entries.length ≤ c.maxSize) :
    (applyOps c ops).entries.length ≤ c.maxSize := by
  induction ops generalizing c with
  | nil => exact hlen
  | cons op rest ih =>
    have hmax := applyOp_maxSize c op
    have hstep := applyOp_length_le c op hpos hlen
    have := ih (applyOp c op) (by rw [hmax]; exact hpos) (by rw [hmax]; exact hstep)
    rw [hmax] at this
    exact this

/-! ### C5 -/

/-- C5 counterexample: with the configured maximum size 0, inserting one entry
leaves the cache with 1 entry, exceeding the configured maximum — the eviction
branch finds no `firstKey` in the empty map and skips deletion before
inserting. -/
theorem c5_capacity_counterexample :
    ¬ ((applyOps (LRUCache.empty Nat Nat 0) [CacheOp.set 1 1]).size ≤
        (LRUCache.empty Nat Nat 0).maxSize) := by
  decide

/-- C5 (amended): for every configured maximum size of at least 1 and every
finite sequence of get, set, has, delete, and clear operations starting from
the freshly constructed cache, the entry count never exceeds the configured
maximum size. -/
theorem c5_capacity_invariant (K V : Type) [DecidableEq K] (maxSize : Nat)
    (hpos : 1 ≤ maxSize) (ops : List (CacheOp K V)) :
    (applyOps (LRUCache.empty K V maxSize) ops).size ≤ maxSize := by
  exact applyOps_length_le ops (LRUCache.empty K V maxSize) hpos (by simp [LRUCache.empty])

/-- C5 witness: capacity 1, two insertions of distinct keys — the size stays
at 1. -/
theorem c5_capacity_invariant_witness :
    1 ≤ 1 ∧
    (applyOps (LRUCache.empty Nat Nat 1) [CacheOp.set 1 2, CacheOp.set 2 3]).size ≤ 1 :=
  ⟨by decide, c5_capacity_invariant Nat Nat 1 (by decide) [CacheOp.set 1 2, CacheOp.set 2 3]⟩

/-! ### C6 -/

theorem lookupKey_eraseKey_self (k : K) (l : List (K × V)) :
    lookupKey k (eraseKey k l) = none := by
  induction l with
  | nil => rfl
  | cons p rest ih =>
    by_cases hp : p.1 = k
    · simpa [eraseKey, List.filter_cons, hp] using ih
    · simpa [eraseKey, List.filter_cons, hp, lookupKey] using ih

theorem lookupKey_append (k : K) (l l' : List (K × V)) :
    lookupKey k (l ++ l') =
      match lookupKey k l with
      | some v => some v
      | none => lookupKey k l' := by
  induction l with
  | nil => rfl
  | cons p rest ih =>
    by_cases hp : p.1 = k
    · simp [lookupKey, hp]
    · simp [lookupKey, hp, ih]

theorem lookupKey_none_tail {k : K} {l : List (K × V)}
    (h : lookupKey k l = none) : lookupKey k l.tail = none := by
  cases l with
  | nil => rfl
  | cons p rest =>
    by_cases hp : p.1 = k
    · simp [lookupKey, hp] at h
    · simpa [lookupKey, hp] using h

/-- C6: (1) `get` on a present key returns the stored value and moves the
binding to the most-recently-used (last) position, leaving the other entries
in order; (2) `set` inserts or replaces so the key is bound to the new value
and sits in the most-recently-used position; (3) inserting a new key into a
full cache evicts exactly the least-recently-used (first) entry.  Recency is
updated by both `get` (part 1) and `set` (parts 2 and 3). -/
theorem c6_lru_semantics (K V : Type) [DecidableEq K] :
    (∀ (c : LRUCache K V) (k : K) (v : V), lookupKey k c.entries = some v →
      (c.get k).1 = some v ∧
      (c.get k).2.entries = eraseKey k c.entries ++ [(k, v)] ∧
      (c.get k).2.entries.getLast? = some (k, v)) ∧
    (∀ (c : LRUCache K V) (k : K) (v : V),
      lookupKey k (c.set k v).entries = some v ∧
      (c.set k v).entries.getLast? = some (k, v)) ∧
    (∀ (c : LRUCache K V) (k : K) (v : V),
      lookupKey k c.entries = none → c.entries.length = c.maxSize → 0 < c.maxSize →
      (c.set k v).entries = c.entries.tail ++ [(k, v)]) := by
  refine ⟨?_, ?_, ?_⟩
  · intro c k v h
    refine ⟨by simp [LRUCache.get, h], by simp [LRUCache.get, h], ?_⟩
    simp only [LRUCache.get, h]
    exact List.getLast?_concat _
  · intro c k v
    constructor
    · simp only [LRUCache.set]
      by_cases hk : (lookupKey k c.entries).isSome
      · rw [if_pos hk, lookupKey_append, lookupKey_eraseKey_self]
        simp [lookupKey]
      · rw [if_neg hk]
        have hnone : lookupKey k c.entries = none := Option.not_isSome_iff_eq_none.mp hk
        by_cases hfull : c.maxSize ≤ c.entries.length
        · rw [if_pos hfull, lookupKey_append]
          cases hent : c.entries with
          | nil => simp [lookupKey]
          | cons p rest =>
            have : lookupKey k rest = none := by
              have := lookupKey_none_tail hnone
              rw [hent] at this
              exact this
            rw [this]
            simp [lookupKey]
        · rw [if_neg hfull, lookupKey_append, hnone]
          simp [lookupKey]
    · simp only [LRUCache.set]
      exact List.getLast?_concat _
  · intro c k v hnone hfull hpos
    simp only [LRUCache.set, hnone, Option.isSome_none, Bool.false_eq_true, if_false,
      if_pos (le_of_eq hfull.symm)]
    cases hent : c.entries with
    | nil =>
      rw [hent] at hfull
      simp at hfull
      omega
    | cons p rest => rfl

/-- C6 witness: the cache `[(1, 10), (2, 20)]` with capacity 2: `get 1`
returns 10 and moves key 1 to the most-recently-used position; `set 3 30` on
the full cache binds 3 at the most-recently-used position and evicts the
least-recently-used entry `(1, 10)`. -/
theorem c6_lru_semantics_witness :
    lookupKey 1 (⟨[(1, 10), (2, 20)], 2⟩ : LRUCache Nat Nat).entries = some 10 ∧
    ((⟨[(1, 10), (2, 20)], 2⟩ : LRUCache Nat Nat).get 1).1 = some 10 ∧
    ((⟨[(1, 10), (2, 20)], 2⟩ : LRUCache Nat Nat).get 1).2.entries.getLast? = some (1, 10) ∧
    ((⟨[(1, 10), (2, 20)], 2⟩ : LRUCache Nat Nat).set 3 30).entries.getLast? = some (3, 30) ∧
    ((⟨[(1, 10), (2, 20)], 2⟩ : LRUCache Nat Nat).set 3 30).entries =
      ([(1, 10), (2, 20)] : List (Nat × Nat)).tail ++ [(3, 30)] := by
  refine ⟨by decide, ?_, ?_, ?_, ?_⟩
  · exact ((c6_lru_semantics Nat Nat).1 ⟨[(1, 10), (2, 20)], 2⟩ 1 10 (by decide)).1
  · exact ((c6_lru_semantics Nat Nat).1 ⟨[(1, 10), (2, 20)], 2⟩ 1 10 (by decide)).2.2
  · exact ((c6_lru_semantics Nat Nat).2.1 ⟨[(1, 10), (2, 20)], 2⟩ 3 30).2
  · exact (c6_lru_semantics Nat Nat).2.2 ⟨[(1, 10), (2, 20)], 2⟩ 3 30 (by decide) (by decide)
      (by decide)

/-! ### C9 -/

theorem assocLookup_some_mem {K V : Type} [DecidableEq K] {k : K} {l : List (K × V)} {v : V}
    (h : assocLookup k l = some v) : (k, v) ∈ l := by
  induction l with
  | nil => simp [assocLookup] at h
  | cons p rest ih =>
    by_cases hp : p.1 = k
    · simp only [assocLookup, if_pos hp] at h
      injection h with hv
      have : p = (k, v) := by
        cases p
        simp only [Prod.mk.injEq]
        exact ⟨hp, hv⟩
      exact this ▸ List.mem_cons_self _ _
    · simp only [assocLookup, if_neg hp] at h
      exact List.mem_cons_of_mem _ (ih h)

theorem telcoPrefixes_lookup : ∀ (t : Telco), ∀ p ∈ (TELCO_DATA t).prefixes,
    pfxLookup p = some t := by
  intro t
  cases t <;> decide

theorem telcoPrefixes_shape : ∀ (t : Telco), ∀ p ∈ (TELCO_DATA t).prefixes,
    p.head? = some '0' ∧ p.all Char.isDigit = true ∧ (p.length = 4 ∨ p.length = 5) := by
  intro t
  cases t <;> decide

theorem prefixMap_key_shape : ∀ q ∈ PREFIX_MAP,
    q.1.length = 4 ∨ (q.1.length = 5 ∧ q.1.take 4 = ['0', '7', '0', '2']) := by
  decide

theorem pfxLookup_0702 : pfxLookup ['0', '7', '0', '2'] = none := by decide

theorem digitChar_isDigit (n : Nat) : (Char.ofNat (48 + n % 10)).isDigit = true := by
  have h : n % 10 < 10 := Nat.mod_lt _ (by omega)
  have hall : ∀ d : Nat, d < 10 → (Char.ofNat (48 + d)).isDigit = true := by decide
  exact hall _ h

/-- `getTelco` on a canonical string probes the local form directly. -/
theorem getTelco_canonical (x : Str)
    (hE : isE164 ('+' :: '2' :: '3' :: '4' :: x) = true) :
    getTelco ('+' :: '2' :: '3' :: '4' :: x) =
      match pfxLookup (('0' :: x).take 5) with
      | some t' => some t'
      | none => pfxLookup (('0' :: x).take 4) := by
  have hnorm : normalizePhone ('+' :: '2' :: '3' :: '4' :: x) .e164 =
      .ok ('+' :: '2' :: '3' :: '4' :: x) := by
    simp [normalizePhone, normalizeCore_of_isE164 hE, Except.map, convertFormat]
  simp only [getTelco, hnorm]
  rfl

/-- C9: for every provider, every choice of one of its declared prefixes, and
every outcome of the digit draws filling the remaining `11 - prefix.length`
positions, `generateRandomPhone` succeeds, its output passes
`isValidNigerianNumber`, and `getTelco` on the output returns exactly the
requested provider. -/
theorem c9_generateRandomPhone_valid (t : Telco) (i : Nat) (draws : List Nat)
    (hi : i < (getTelcoInfo t).prefixes.length)
    (hdraws : draws.length = 11 - ((getTelcoInfo t).prefixes.getD i []).length) :
    ∃ s, generateRandomPhone t i draws = .ok s ∧
      isValidNigerianNumber s = true ∧ getTelco s = some t := by
  set pfx := (getTelcoInfo t).prefixes.getD i [] with hpfx_def
  set number := draws.map (fun n => Char.ofNat (48 + n % 10)) with hnum_def
  have hmem : pfx ∈ (TELCO_DATA t).prefixes := by
    rw [hpfx_def]
    rw [List.getD_eq_getElem?_getD, List.getElem?_eq_getElem hi]
    exact List.getElem_mem hi
  obtain ⟨hhead, hdig, hlen45⟩ := telcoPrefixes_shape t pfx hmem
  have hlk : pfxLookup pfx = some t := telcoPrefixes_lookup t pfx hmem
  have hnum_len : number.length = 11 - pfx.length := by
    rw [hnum_def, List.length_map]
    exact hdraws
  have hnum_dig : number.all Char.isDigit = true := by
    rw [hnum_def]
    refine List.all_eq_true.mpr (fun c hc => ?_)
    obtain ⟨n, _, rfl⟩ := List.mem_map.mp hc
    exact digitChar_isDigit n
  obtain ⟨pr, hpr⟩ : ∃ pr, pfx = '0' :: pr := by
    cases hp : pfx with
    | nil => rw [hp] at hhead; simp at hhead
    | cons c r =>
      rw [hp] at hhead
      simp only [List.head?_cons, Option.some.injEq] at hhead
      exact ⟨r, by rw [hhead]⟩
  have hpfxlen1 : pfx.length = pr.length + 1 := by rw [hpr]; rfl
  have hs0len : (pfx ++ number).length = 11 := by
    rw [List.length_append, hnum_len]
    rcases hlen45 with h | h <;> omega
  have hs0head : (pfx ++ number).head? = some '0' := by rw [hpr]; rfl
  have hs0dig : (pfx ++ number).all Char.isDigit = true := by
    rw [List.all_append, hdig, hnum_dig]
    rfl
  have hcore := normalize_local_digits (pfx ++ number) hs0head hs0len hs0dig
  have hXdef : (pfx ++ number).drop 1 = pr ++ number := by rw [hpr]; rfl
  have hXlen : (pr ++ number).length = 10 := by
    rw [List.length_append, hnum_len]
    rcases hlen45 with h | h <;> omega
  have hXdig : (pr ++ number).all Char.isDigit = true := by
    rw [hpr] at hs0dig
    simp only [List.cons_append, List.all_cons, Bool.and_eq_true] at hs0dig
    exact hs0dig.2
  have hE : isE164 ('+' :: '2' :: '3' :: '4' :: ((pfx ++ number).drop 1)) = true := by
    rw [hXdef]
    exact isE164_cons hXlen hXdig
  have hnorm : normalizePhone ('+' :: '2' :: '3' :: '4' :: ((pfx ++ number).drop 1)) .e164 =
      .ok ('+' :: '2' :: '3' :: '4' :: ((pfx ++ number).drop 1)) := by
    unfold normalizePhone
    rw [normalizeCore_of_isE164 hE]
    rfl
  refine ⟨'+' :: '2' :: '3' :: '4' :: ((pfx ++ number).drop 1), ?_, ?_, ?_⟩
  · show normalizePhone (pfx ++ number) .e164 = _
    unfold normalizePhone
    rw [hcore]
    rfl
  · unfold isValidNigerianNumber
    rw [hnorm]
  · rw [getTelco_canonical _ hE, hXdef]
    rcases hlen45 with h4 | h5
    · -- 4-digit prefix: the 5-character probe misses, the 4-character one hits
      have hpr3 : pr.length = 3 := by omega
      obtain ⟨c, cs, hnc⟩ : ∃ c cs, number = c :: cs := by
        cases hn : number with
        | nil => rw [hn] at hnum_len; rw [h4] at hnum_len; simp at hnum_len
        | cons c cs => exact ⟨c, cs, rfl⟩
      have hkey5 : ('0' :: (pr ++ number)).take 5 = '0' :: (pr ++ [c]) := by
        rw [hnc, List.take_succ_cons, List.take_append_eq_append_take,
          List.take_of_length_le (by omega), hpr3]
        simp
      have hkey4 : ('0' :: (pr ++ number)).take 4 = pfx := by
        rw [List.take_succ_cons, List.take_left' hpr3, ← hpr]
      have hnone : pfxLookup ('0' :: (pr ++ [c])) = none := by
        cases hl : pfxLookup ('0' :: (pr ++ [c])) with
        | none => rfl
        | some t' =>
          exfalso
          have hm : (('0' :: (pr ++ [c])), t') ∈ PREFIX_MAP := assocLookup_some_mem hl
          have hq : ('0' :: (pr ++ [c])).length = 4 ∨
              (('0' :: (pr ++ [c])).length = 5 ∧
                ('0' :: (pr ++ [c])).take 4 = ['0', '7', '0', '2']) :=
            prefixMap_key_shape _ hm
          have hklen : ('0' :: (pr ++ [c])).length = 5 := by simp [hpr3]
          rcases hq with hq4 | ⟨hq5, hqtake⟩
          · omega
          · have ht4 : ('0' :: (pr ++ [c])).take 4 = '0' :: pr := by
              rw [List.take_succ_cons, List.take_left' hpr3]
            rw [ht4] at hqtake
            have hbad : pfx = ['0', '7', '0', '2'] := by rw [hpr, hqtake]
            rw [hbad, pfxLookup_0702] at hlk
            exact Option.noConfusion hlk
      rw [hkey5, hkey4, hnone, hlk]
    · -- 5-digit prefix: the 5-character probe hits directly
      have hlocal : '0' :: (pr ++ number) = pfx ++ number := by rw [hpr]; rfl
      rw [hlocal, List.take_left' h5, hlk]

/-- C9 witness: MTN, its first declared prefix `0703`, and the draw sequence
`1,2,3,4,5,6,7` filling the remaining seven digit positions. -/
theorem c9_generateRandomPhone_valid_witness :
    0 < (getTelcoInfo Telco.mtn).prefixes.length ∧
    (∃ s, generateRandomPhone Telco.mtn 0 [1, 2, 3, 4, 5, 6, 7] = .ok s ∧
      isValidNigerianNumber s = true ∧ getTelco s = some Telco.mtn) :=
  ⟨by decide,
   c9_generateRandomPhone_valid Telco.mtn 0 [1, 2, 3, 4, 5, 6, 7] (by decide) (by decide)⟩

end NigUtils
